import Mathlib

/-!
Verification of the MTCL generic collective layer
(`src/include/collectives/collectiveImpl.hpp`) against its specification.

The C++ code is shallowly embedded: handle state is an explicit record, the
behaviour of the underlying transport (the result of a raw `probe`,
`receive` or `send`) is an explicit environment parameter, and every
operation is a pure Lean function returning its result value together with
the updated state and a record of the I/O it performed.
-/

namespace MTCL

/-- Error codes used by the collective layer, mirroring the errno values
assigned in the C++ source. -/
inductive Errno where
  | eBADF
  | eCONNRESET
  | eWOULDBLOCK
  | eAGAIN
  | eINVAL
  | eFAULT
  | eNOMEM
  | eIO
deriving DecidableEq, Repr

/-- Handle state visible to the framing helper: the probed cache
`probed = (probedP, probedS)` and the two half-close flags. -/
structure HandleSt where
  probedP : Bool
  probedS : Nat
  closedRd : Bool
  closedWr : Bool
deriving DecidableEq, Repr

/-- Handle::close sets the half-close flags of the requested directions. -/
def closeH (h : HandleSt) (wr rd : Bool) : HandleSt :=
  { h with closedWr := h.closedWr || wr, closedRd := h.closedRd || rd }

/-- Outcome of one call to the underlying transport probe of a Handle:
an error with the errno the transport sets, a zero return, or a header
read reporting payload size `size`. -/
inductive ProbeRes where
  | perr (e : Errno)
  | peos
  | pok (size : Nat)
deriving DecidableEq, Repr

/-- Environment for one `receiveFromHandle` call: the outcome of the
underlying probe (if one happens), the return value of the underlying
receive (if one happens), and the errno the transport sets when that
receive fails. -/
structure HandleEnv where
  pres : ProbeRes
  rres : Int
  rerr : Errno
deriving DecidableEq, Repr

/-- Result of `CollectiveImpl::probeHandle`: the return value, the `size`
out-parameter, the Handle state after the call, whether the underlying
transport probe was invoked, and errno after the call. -/
structure PHOut where
  ret : Int
  size : Nat
  h : HandleSt
  upCalled : Bool
  err : Errno
deriving DecidableEq, Repr

/-- Shallow embedding of `CollectiveImpl::probeHandle`. The header size
constant `sizeof(size_t)` is 8. `sizeIn` and `errIn` are the values of the
out-parameter and of errno before the call. -/
def probeHandle (h : HandleSt) (pres : ProbeRes) (_blocking : Bool)
    (sizeIn : Nat) (errIn : Errno) : PHOut :=
  if h.probedP then
    ⟨if h.probedS = 0 then 0 else 8, h.probedS, h, false, errIn⟩
  else if h.closedRd then
    ⟨0, sizeIn, h, false, errIn⟩
  else
    match pres with
    | .perr e =>
        if e = .eCONNRESET then ⟨0, sizeIn, closeH h true true, true, e⟩
        else if e = .eWOULDBLOCK ∨ e = .eAGAIN then ⟨-1, sizeIn, h, true, .eWOULDBLOCK⟩
        else ⟨-1, sizeIn, h, true, e⟩
    | .peos => ⟨0, sizeIn, closeH h true true, true, errIn⟩
    | .pok s =>
        if s = 0 then
          ⟨0, s, closeH { h with probedP := true, probedS := s } false true, true, errIn⟩
        else ⟨8, s, { h with probedP := true, probedS := s }, true, errIn⟩

/-- Result of `CollectiveImpl::receiveFromHandle`: the return value, the
Handle state after the call, whether the underlying probe was invoked,
the byte count passed to the underlying receive when it was invoked, and
errno after the call. -/
structure RFOut where
  ret : Int
  h : HandleSt
  upProbe : Bool
  recvCalled : Option Nat
  err : Errno
deriving DecidableEq, Repr

/-- Shared tail of `receiveFromHandle`: the capacity check of the probed
size against the caller buffer, then the underlying receive of
`min sz cap` bytes with the probed state cleared first. -/
def recvStep (h : HandleSt) (env : HandleEnv) (cap : Nat) (errCur : Errno)
    (up : Bool) : RFOut :=
  if h.probedS > cap then ⟨-1, h, up, none, .eNOMEM⟩
  else
    ⟨env.rres, { h with probedP := false, probedS := 0 }, up,
      some (min h.probedS cap), if env.rres < 0 then env.rerr else errCur⟩

/-- Shallow embedding of `CollectiveImpl::receiveFromHandle` with buffer
capacity `cap`. -/
def receiveFromHandle (h : HandleSt) (env : HandleEnv) (cap : Nat)
    (errIn : Errno) : RFOut :=
  if h.probedP then
    if h.closedRd then ⟨0, h, false, none, errIn⟩
    else recvStep h env cap errIn false
  else
    let p := probeHandle h env.pres true 0 errIn
    if p.ret ≤ 0 then ⟨p.ret, p.h, p.upCalled, none, p.err⟩
    else recvStep p.h env cap p.err p.upCalled

/-- Shallow embedding of `CollectiveImpl::getTeamPartitionSize`. -/
def getTeamPartitionSize (nparticipants rank buffcount : Nat) : Nat :=
  let partition := buffcount / nparticipants
  let r := buffcount % nparticipants
  if r ≠ 0 ∧ rank < r then partition + 1 else partition

/-- Chunk formula of the specification: over `count = sendsize / datasize`,
`base = (count / n) * datasize` and `remainder = count % n`, rank `r` gets
`base` plus one extra `datasize` when `r < remainder`. -/
def specChunk (sendsize datasize n r : Nat) : Nat :=
  sendsize / datasize / n * datasize +
    (if r < sendsize / datasize % n then datasize else 0)

/-- Outcome of a Scatter `sendrecv` at the root: either a failure with its
errno and the chunks sent before failing, or success with the return
value, the bytes copied into recvbuf, and the chunk sent to each peer
Handle in order. -/
inductive SOut where
  | fail (e : Errno) (sends : List (List Nat))
  | ok (ret : Nat) (recv : List Nat) (sends : List (List Nat))
deriving DecidableEq, Repr

/-- Peer-send loop of `ScatterGeneric::sendrecv` (root side). `buf` is the
suffix of sendbuf starting at the running offset, `rcount` the remaining
extra elements, `i` the peer index, `k` the peers still to serve and `acc`
the chunks sent so far; the Bool records whether every send succeeded. -/
def scatterLoop (sendOk : Nat → Bool) (sendcount datasize : Nat) :
    List Nat → Nat → Nat → Nat → List (List Nat) → Bool × List (List Nat)
  | _, _, _, 0, acc => (true, acc)
  | buf, rcount, i, k + 1, acc =>
      let chunksize := sendcount + (if rcount > 0 then datasize else 0)
      let rcount1 := if rcount > 0 then rcount - 1 else rcount
      if sendOk i then
        scatterLoop sendOk sendcount datasize (buf.drop chunksize) rcount1
          (i + 1) k (acc ++ [buf.take chunksize])
      else (false, acc)

/-- Shallow embedding of `ScatterGeneric::sendrecv` on the root side.
Buffers are byte lists; a null pointer is `none` for sendbuf and the
`recvbufNull` flag for recvbuf, whose capacity is `recvsize`. `sendOk i`
tells whether the transport send to peer Handle `i` succeeds. -/
def ScatterGeneric.sendrecvRoot (nparticipants datasize : Nat)
    (sendbufO : Option (List Nat)) (recvbufNull : Bool)
    (sendsize recvsize : Nat) (sendOk : Nat → Bool) : SOut :=
  if recvbufNull then .fail .eFAULT []
  else
    match sendbufO with
    | none => .fail .eFAULT []
    | some sendbuf =>
        if sendsize % datasize ≠ 0 then .fail .eINVAL []
        else
          let datacount := sendsize / datasize
          let sendcount := datacount / nparticipants * datasize
          let rcount0 := datacount % nparticipants
          let selfsendcount := sendcount + (if rcount0 > 0 then datasize else 0)
          let rcount1 := if rcount0 > 0 then rcount0 - 1 else rcount0
          if recvsize < selfsendcount then .fail .eINVAL []
          else
            match scatterLoop sendOk sendcount datasize
                (sendbuf.drop selfsendcount) rcount1 0 (nparticipants - 1) [] with
            | (true, sends) => .ok selfsendcount (sendbuf.take selfsendcount) sends
            | (false, sends) => .fail .eCONNRESET sends

/-- Common result record for the non-root AllGather and AllToAll
embeddings: return value, Handle state after the call, errno after the
call, and the byte count handed to the transport send when one happened. -/
structure AGOut where
  ret : Int
  h : HandleSt
  err : Errno
  sent : Option Nat
deriving DecidableEq, Repr

/-- Shallow embedding of `AllGatherGeneric::sendrecv` on a non-root rank.
Buffers appear only through their null flags and sizes; `sendRes` is the
return value of the transport send of this rank's chunk, `h` and `env`
drive the frame-receive of the result from participants[0]. -/
def AllGatherGeneric.sendrecvNonRoot (nparticipants rank datasize : Nat)
    (sendbufNull recvbufNull : Bool) (sendsize recvsize : Nat)
    (h : HandleSt) (env : HandleEnv) (sendRes : Int) (errIn : Errno) : AGOut :=
  if sendbufNull then ⟨-1, h, .eFAULT, none⟩
  else if recvbufNull then ⟨-1, h, .eFAULT, none⟩
  else if recvsize % datasize ≠ 0 then ⟨-1, h, .eINVAL, none⟩
  else
    let datacount := recvsize / datasize
    let recvcount := datacount / nparticipants * datasize
    let rcount := datacount % nparticipants
    let chunksize := recvcount + (if rcount ≠ 0 ∧ rank < rcount then datasize else 0)
    if chunksize > sendsize then ⟨-1, h, .eINVAL, none⟩
    else if sendRes < 0 then ⟨-1, h, .eCONNRESET, none⟩
    else
      let rfh := receiveFromHandle h env recvsize errIn
      if rfh.ret = 0 then ⟨(chunksize : Int), closeH rfh.h true false, rfh.err, some chunksize⟩
      else ⟨(chunksize : Int), rfh.h, rfh.err, some chunksize⟩

/-- Shallow embedding of `AlltoallGeneric::sendrecv` on a non-root rank. -/
def AlltoallGeneric.sendrecvNonRoot (nparticipants rank datasize : Nat)
    (sendbufNull recvbufNull : Bool) (sendsize recvsize : Nat)
    (h : HandleSt) (env : HandleEnv) (sendRes : Int) (errIn : Errno) : AGOut :=
  if sendbufNull then ⟨-1, h, .eFAULT, none⟩
  else if recvbufNull then ⟨-1, h, .eFAULT, none⟩
  else if sendsize % datasize ≠ 0 then ⟨-1, h, .eINVAL, none⟩
  else
    let datacount := sendsize / datasize
    let sendcount := datacount / nparticipants * datasize
    let rcount := datacount % nparticipants
    let selfrecvcount :=
      (sendcount + (if rcount ≠ 0 ∧ rank < rcount then datasize else 0)) * nparticipants
    if recvsize < selfrecvcount then ⟨-1, h, .eINVAL, none⟩
    else if sendRes < 0 then ⟨-1, h, .eCONNRESET, none⟩
    else
      let rfh := receiveFromHandle h env recvsize errIn
      if rfh.ret = 0 then ⟨(selfrecvcount : Int), closeH rfh.h true false, rfh.err, some sendsize⟩
      else ⟨(selfrecvcount : Int), rfh.h, rfh.err, some sendsize⟩

/-- Outcome of one raw probe of a Handle inside FanIn or FanOut: `retry`
models any negative return, `zero` a zero return, and `msg n` a successful
header read with payload size `n`, where `n = 0` is the peer EOS marker. -/
inductive FOut where
  | retry
  | zero
  | msg (n : Nat)
deriving DecidableEq, Repr

/-- A participant Handle as seen by FanIn and FanOut: an identity, the
outcome its raw probe yields during the current call, the probed cache and
the half-close flags. -/
structure FHandle where
  id : Nat
  out : FOut
  probedP : Bool
  probedS : Nat
  closedRd : Bool
  closedWr : Bool
deriving DecidableEq, Repr

/-- Assignment `h->probed = (true, s)` on a participant Handle. -/
def setProbed (h : FHandle) (s : Nat) : FHandle :=
  { h with probedP := true, probedS := s }

/-- Handle::close on a participant Handle. -/
def closeF (h : FHandle) (wr rd : Bool) : FHandle :=
  { h with closedWr := h.closedWr || wr, closedRd := h.closedRd || rd }

/-- Result of `FanInGeneric::probe`: the return value, the `size`
out-parameter, the participants list after the call, the `probed_idx`
member after the call, the ids of the Handles closed during the call, and
the ids of the Handles probed, in scan order. -/
structure FanInRes where
  ret : Int
  size : Nat
  ps : List FHandle
  pidx : Int
  closed : List Nat
  trace : List Nat
deriving DecidableEq, Repr

/-- Loop exit of `FanInGeneric::probe`: when the participants list ended
up empty, a synthetic group EOS (size 0, header-read indicator 8) replaces
whatever the loop produced. -/
def fanInFinish (ret : Int) (size : Nat) (ps : List FHandle) (pidx : Int)
    (closed trace : List Nat) : FanInRes :=
  if ps.isEmpty then ⟨8, 0, ps, pidx, closed, trace⟩
  else ⟨ret, size, ps, pidx, closed, trace⟩

/-- Scan loop of `FanInGeneric::probe`, fuel-bounded to account for the
blocking-mode wrap-around; `i` is the iterator position, `size` the out
parameter, `pidx` the `probed_idx` member. A Handle whose probe reports a
message with size 0 (peer EOS) is erased from the list and closed, and the
scan goes on; a Handle reporting a positive size is marked probed and the
loop returns with `probed_idx` at its position. -/
def fanInLoop (blocking : Bool) : Nat → List FHandle → Nat → Nat → Int →
    List Nat → List Nat → Option FanInRes
  | 0, ps, _, size, pidx, closed, trace =>
      if ps.isEmpty then some (fanInFinish (-1) size ps pidx closed trace)
      else none
  | fuel + 1, ps, i, size, pidx, closed, trace =>
      if ps.isEmpty then some (fanInFinish (-1) size ps pidx closed trace)
      else
        match ps[i]? with
        | none => none
        | some h =>
          match h.out with
          | .retry =>
              if i + 1 = ps.length then
                if blocking then
                  fanInLoop blocking fuel ps 0 size pidx closed (trace ++ [h.id])
                else some (fanInFinish (-1) size ps pidx closed (trace ++ [h.id]))
              else fanInLoop blocking fuel ps (i + 1) size pidx closed (trace ++ [h.id])
          | .zero => some (fanInFinish 0 size ps pidx closed (trace ++ [h.id]))
          | .msg n =>
              if n = 0 then
                if i = (ps.eraseIdx i).length ∨ i + 1 = (ps.eraseIdx i).length then
                  if blocking then
                    fanInLoop blocking fuel (ps.eraseIdx i) 0 0 pidx
                      (closed ++ [h.id]) (trace ++ [h.id])
                  else
                    some (fanInFinish (-1) 0 (ps.eraseIdx i) pidx
                      (closed ++ [h.id]) (trace ++ [h.id]))
                else
                  fanInLoop blocking fuel (ps.eraseIdx i) (i + 1) 0 pidx
                    (closed ++ [h.id]) (trace ++ [h.id])
              else
                some (fanInFinish 8 n (ps.set i (setProbed h n)) (Int.ofNat i)
                  closed (trace ++ [h.id]))

/-- Shallow embedding of `FanInGeneric::probe`; `size0` and `pidx0` are
the values of the `size` out-parameter and of `probed_idx` before the
call. The scan starts at `participants.begin()`, position 0. -/
def FanInGeneric.probe (blocking : Bool) (fuel : Nat) (ps : List FHandle)
    (size0 : Nat) (pidx0 : Int) : Option FanInRes :=
  fanInLoop blocking fuel ps 0 size0 pidx0 [] []

/-- Shallow embedding of `FanInGeneric::receive`; `recvRes` is the value
the underlying Handle receive returns. Returns the call result, the
participants list and the new `probed_idx`; `none` models the
out-of-range access when `probed_idx` is invalid. -/
def FanInGeneric.receive (ps : List FHandle) (pidx : Int) (recvRes : Int) :
    Option (Int × List FHandle × Int) :=
  match ps[pidx.toNat]? with
  | none => none
  | some h =>
      if recvRes ≤ 0 then some (-1, ps, pidx)
      else some (recvRes, ps.set pidx.toNat { h with probedP := false, probedS := 0 }, -1)

/-- Result of `FanOutGeneric::probe`: the return value, the `size`
out-parameter, the participants list after the call, the ids of the
Handles closed during the call, errno after the call, and whether a raw
probe was performed. -/
structure FanOutRes where
  ret : Int
  size : Nat
  ps : List FHandle
  closed : List Nat
  err : Errno
  probeCalled : Bool
deriving DecidableEq, Repr

/-- Shallow embedding of `FanOutGeneric::probe`: only `participants[0]`
is probed; on a message of size 0 (EOS) the code pops the BACK of the
participants list, closes the probed front Handle and still marks it
probed with size 0. When the popped Handle is the probed one (singleton
list) its updated fields leave the list with it. -/
def FanOutGeneric.probe (ps : List FHandle) (_blocking : Bool) (size0 : Nat)
    (errIn : Errno) : FanOutRes :=
  match ps with
  | [] => ⟨-1, size0, [], [], .eCONNRESET, false⟩
  | h :: t =>
      match h.out with
      | .retry => ⟨-1, size0, h :: t, [], errIn, true⟩
      | .zero => ⟨0, size0, h :: t, [], errIn, true⟩
      | .msg n =>
          if n = 0 then
            let l1 := (h :: t).dropLast
            let h1 := setProbed (closeF h true true) 0
            ⟨8, 0, if l1.isEmpty then l1 else l1.set 0 h1, [h.id], errIn, true⟩
          else ⟨8, n, (h :: t).set 0 (setProbed h n), [], errIn, true⟩

/-! Helper lemmas shared by the claim theorems. -/

theorem setProbed_id (h : FHandle) (s : Nat) : (setProbed h s).id = h.id := rfl

theorem closeF_id (h : FHandle) (wr rd : Bool) : (closeF h wr rd).id = h.id := rfl

/-- Pointwise closed form of the partition size. -/
theorem getTeamPartitionSize_eq (nparticipants rank buffcount : Nat) :
    getTeamPartitionSize nparticipants rank buffcount =
      buffcount / nparticipants +
        (if rank < buffcount % nparticipants then 1 else 0) := by
  unfold getTeamPartitionSize
  rcases Nat.eq_zero_or_pos (buffcount % nparticipants) with h0 | h0
  · simp [h0]
  · by_cases hlt : rank < buffcount % nparticipants
    · simp [hlt, Nat.pos_iff_ne_zero.mp h0]
    · simp [hlt]

/-- Counting the ranks below a threshold inside a range. -/
theorem sum_ite_lt (n m : Nat) :
    (Finset.range n).sum (fun r => if r < m then 1 else 0) = min m n := by
  induction n with
  | zero => simp
  | succ n ih =>
      rw [Finset.sum_range_succ, ih]
      rcases Nat.lt_or_ge n m with h | h
      · simp [h]
        omega
      · have : ¬ n < m := Nat.not_lt.mpr h
        simp [this]
        omega

/-- A probe that actually reaches the transport reports that it did. -/
theorem probeHandle_upCalled (h : HandleSt) (pres : ProbeRes) (b : Bool)
    (sizeIn : Nat) (errIn : Errno) (hp : h.probedP = false)
    (hrd : h.closedRd = false) :
    (probeHandle h pres b sizeIn errIn).upCalled = true := by
  unfold probeHandle
  simp only [hp, hrd, Bool.false_eq_true, if_false]
  cases pres with
  | perr e =>
      by_cases h1 : e = Errno.eCONNRESET
      · simp [h1]
      · by_cases h2 : e = Errno.eWOULDBLOCK ∨ e = Errno.eAGAIN
        · simp [h1, h2]
        · simp [h1, h2]
  | peos => rfl
  | pok s =>
      by_cases h1 : s = 0
      · simp [h1]
      · simp [h1]

/-- A receiveFromHandle on an unprobed open Handle always goes through the
transport probe. -/
theorem receiveFromHandle_upProbe (h : HandleSt) (env : HandleEnv)
    (cap : Nat) (errIn : Errno) (hp : h.probedP = false)
    (hrd : h.closedRd = false) :
    (receiveFromHandle h env cap errIn).upProbe = true := by
  unfold receiveFromHandle
  simp only [hp, Bool.false_eq_true, if_false]
  have hup := probeHandle_upCalled h env.pres true 0 errIn hp hrd
  by_cases hret : (probeHandle h env.pres true 0 errIn).ret ≤ 0
  · simp [hret, hup]
  · simp only [hret, if_false]
    unfold recvStep
    by_cases hcap : (probeHandle h env.pres true 0 errIn).h.probedS > cap
    · simp [hcap, hup]
    · simp [hcap, hup]

/-- When receiveFromHandle reaches the transport receive, the probed state
has been cleared and the Handle is still open for reading. -/
theorem receiveFromHandle_clears (h : HandleSt) (env : HandleEnv)
    (cap : Nat) (errIn : Errno)
    (hrecv : ((receiveFromHandle h env cap errIn).recvCalled).isSome = true) :
    (receiveFromHandle h env cap errIn).h.probedP = false ∧
    (receiveFromHandle h env cap errIn).h.probedS = 0 ∧
    (receiveFromHandle h env cap errIn).h.closedRd = false := by
  obtain ⟨hp, hs, hrd, hwr⟩ := h
  obtain ⟨pres, rres, rerr⟩ := env
  cases hp
  · cases hrd
    · cases pres with
      | perr e =>
          by_cases h1 : e = Errno.eCONNRESET
          · simp [receiveFromHandle, probeHandle, h1] at hrecv
          · by_cases h2 : e = Errno.eWOULDBLOCK ∨ e = Errno.eAGAIN
            · simp [receiveFromHandle, probeHandle, h1, h2] at hrecv
            · simp [receiveFromHandle, probeHandle, h1, h2] at hrecv
      | peos => simp [receiveFromHandle, probeHandle] at hrecv
      | pok s =>
          by_cases h1 : s = 0
          · simp [receiveFromHandle, probeHandle, h1] at hrecv
          · by_cases h2 : s > cap
            · simp [receiveFromHandle, probeHandle, recvStep, h1, h2] at hrecv
            · simp [receiveFromHandle, probeHandle, recvStep, h1, h2]
    · simp [receiveFromHandle, probeHandle] at hrecv
  · cases hrd
    · by_cases h2 : hs > cap
      · simp [receiveFromHandle, recvStep, h2] at hrecv
      · simp [receiveFromHandle, recvStep, h2]
    · simp [receiveFromHandle] at hrecv

/-! Claim theorems. -/

/-- C5: probed-state discipline of the Framing Helper. A Handle whose
probed state is pending with size s answers every further probeHandle call
with size s and the matching indicator, without invoking the underlying
probe and without changing the Handle (so any number of iterated calls
leaves it fixed); and a receiveFromHandle that goes on to call the
underlying receive clears the probed state to (false, 0), after which the
next receiveFromHandle must invoke the underlying probe again. -/
theorem C5_probed_state_discipline (h : HandleSt) (s : Nat)
    (hp : h.probedP = true) (hs : h.probedS = s) :
    (∀ pres blocking sizeIn errIn,
      probeHandle h pres blocking sizeIn errIn =
        ⟨if s = 0 then 0 else 8, s, h, false, errIn⟩) ∧
    (∀ pres blocking sizeIn errIn n,
      (fun hh => (probeHandle hh pres blocking sizeIn errIn).h)^[n] h = h) ∧
    (∀ h2 env cap errIn,
      ((receiveFromHandle h2 env cap errIn).recvCalled).isSome = true →
        (receiveFromHandle h2 env cap errIn).h.probedP = false ∧
        (receiveFromHandle h2 env cap errIn).h.probedS = 0 ∧
        ∀ env2 cap2 err2,
          (receiveFromHandle (receiveFromHandle h2 env cap errIn).h env2 cap2 err2).upProbe
            = true) := by
  refine ⟨?_, ?_, ?_⟩
  · intro pres blocking sizeIn errIn
    simp [probeHandle, hp, hs]
  · intro pres blocking sizeIn errIn n
    apply Function.iterate_fixed
    simp [probeHandle, hp]
  · intro h2 env cap errIn hrecv
    obtain ⟨c1, c2, c3⟩ := receiveFromHandle_clears h2 env cap errIn hrecv
    exact ⟨c1, c2, fun env2 cap2 err2 =>
      receiveFromHandle_upProbe _ env2 cap2 err2 c1 c3⟩

/-- C5 witness at a concrete pending Handle. -/
theorem C5_probed_state_discipline_witness :
    probeHandle ⟨true, 5, false, false⟩ ProbeRes.peos true 0 Errno.eINVAL =
      ⟨8, 5, ⟨true, 5, false, false⟩, false, Errno.eINVAL⟩ := by
  have hthm := (C5_probed_state_discipline ⟨true, 5, false, false⟩ 5 rfl rfl).1
    ProbeRes.peos true 0 Errno.eINVAL
  simpa using hthm

/-- C6: a receiveFromHandle whose probed size s exceeds the capacity
returns -1 with the buffer-too-small error ENOMEM, does not invoke the
underlying receive, and leaves the Handle unchanged, still pending with
size s; a retry on it with capacity at least s invokes the underlying
receive for exactly s bytes, clears the probed state and returns the
transport result. -/
theorem C6_buffer_too_small (h : HandleSt) (s cap : Nat) (env : HandleEnv)
    (errIn : Errno) (hp : h.probedP = true) (hs : h.probedS = s)
    (hrd : h.closedRd = false) (hcap : cap < s) :
    receiveFromHandle h env cap errIn = ⟨-1, h, false, none, Errno.eNOMEM⟩ ∧
    (∀ cap2 env2 err2, s ≤ cap2 →
      receiveFromHandle h env2 cap2 err2 =
        ⟨env2.rres, { h with probedP := false, probedS := 0 }, false, some s,
          if env2.rres < 0 then env2.rerr else err2⟩) := by
  constructor
  · simp [receiveFromHandle, recvStep, hp, hrd, hs, hcap]
  · intro cap2 env2 err2 hge
    have hnot : ¬ h.probedS > cap2 := by omega
    simp [receiveFromHandle, recvStep, hp, hrd, hnot, hs,
      Nat.min_eq_left hge]
    omega

/-- C6 witness: probed size 5 against capacity 3, retried with 8. -/
theorem C6_buffer_too_small_witness :
    receiveFromHandle ⟨true, 5, false, false⟩ ⟨ProbeRes.peos, 5, Errno.eIO⟩ 3 Errno.eINVAL =
      ⟨-1, ⟨true, 5, false, false⟩, false, none, Errno.eNOMEM⟩ ∧
    receiveFromHandle ⟨true, 5, false, false⟩ ⟨ProbeRes.peos, 5, Errno.eIO⟩ 8 Errno.eINVAL =
      ⟨5, ⟨false, 0, false, false⟩, false, some 5, Errno.eINVAL⟩ := by
  have hthm := C6_buffer_too_small ⟨true, 5, false, false⟩ 5 3
    ⟨ProbeRes.peos, 5, Errno.eIO⟩ Errno.eINVAL rfl rfl rfl (by decide)
  exact ⟨hthm.1, by simpa using hthm.2 8 ⟨ProbeRes.peos, 5, Errno.eIO⟩ Errno.eINVAL (by decide)⟩

/-- C7: the partition size equals the chunk formula at element
granularity, and the per-rank partitions sum to buffcount. -/
theorem C7_partition_size (nparticipants rank buffcount : Nat)
    (hn : 1 ≤ nparticipants) (_hrank : rank < nparticipants) :
    getTeamPartitionSize nparticipants rank buffcount =
      buffcount / nparticipants +
        (if rank < buffcount % nparticipants then 1 else 0) ∧
    (Finset.range nparticipants).sum
        (fun r => getTeamPartitionSize nparticipants r buffcount) = buffcount := by
  refine ⟨getTeamPartitionSize_eq _ _ _, ?_⟩
  have hmod : buffcount % nparticipants < nparticipants :=
    Nat.mod_lt _ (Nat.lt_of_lt_of_le Nat.zero_lt_one hn)
  calc (Finset.range nparticipants).sum
        (fun r => getTeamPartitionSize nparticipants r buffcount)
      = (Finset.range nparticipants).sum
        (fun r => buffcount / nparticipants +
          (if r < buffcount % nparticipants then 1 else 0)) := by
        exact Finset.sum_congr rfl (fun r _ => getTeamPartitionSize_eq _ _ _)
    _ = nparticipants * (buffcount / nparticipants) +
          min (buffcount % nparticipants) nparticipants := by
        rw [Finset.sum_add_distrib, Finset.sum_const, Finset.card_range,
          smul_eq_mul, sum_ite_lt]
    _ = buffcount := by
        rw [Nat.min_eq_left (Nat.le_of_lt hmod)]
        exact Nat.div_add_mod buffcount nparticipants

/-- C7 witness: three participants sharing seven elements. -/
theorem C7_partition_size_witness :
    getTeamPartitionSize 3 0 7 = 7 / 3 + 1 ∧
    (Finset.range 3).sum (fun r => getTeamPartitionSize 3 r 7) = 7 := by
  have hthm := C7_partition_size 3 0 7 (by decide) (by decide)
  exact ⟨by simpa using hthm.1, hthm.2⟩

/-- C10: a FanOut probe on an empty participants list returns -1 with
ConnectionReset without performing any probe, whereas FanIn's probe on an
empty list returns the synthetic group EOS, size 0 with the header-read
indicator. -/
theorem C10_fanout_probe_empty (blocking : Bool) (size0 : Nat) (errIn : Errno) :
    FanOutGeneric.probe [] blocking size0 errIn =
      ⟨-1, size0, [], [], Errno.eCONNRESET, false⟩ ∧
    (∀ fuel pidx0, FanInGeneric.probe blocking fuel [] size0 pidx0 =
      some ⟨8, 0, [], pidx0, [], []⟩) := by
  refine ⟨rfl, ?_⟩
  intro fuel pidx0
  cases fuel <;> rfl

/-- C2 evaluation at the failing input: the transport probe under the
frame-receive fails with errno EIO (a transport error that is not
would-block), receiveFromHandle duly returns -1 with EIO, yet the non-root
AllGather sendrecv returns the chunk byte count 1 and the non-root
AllToAll sendrecv returns the expected-receive byte count 2 instead of -1. -/
theorem C2_transport_error_swallowed :
    (receiveFromHandle ⟨false, 0, false, false⟩ ⟨ProbeRes.perr Errno.eIO, 0, Errno.eIO⟩ 2
        Errno.eINVAL).ret = -1 ∧
    (receiveFromHandle ⟨false, 0, false, false⟩ ⟨ProbeRes.perr Errno.eIO, 0, Errno.eIO⟩ 2
        Errno.eINVAL).err = Errno.eIO ∧
    AllGatherGeneric.sendrecvNonRoot 2 1 1 false false 1 2 ⟨false, 0, false, false⟩
        ⟨ProbeRes.perr Errno.eIO, 0, Errno.eIO⟩ 1 Errno.eINVAL =
      ⟨1, ⟨false, 0, false, false⟩, Errno.eIO, some 1⟩ ∧
    AlltoallGeneric.sendrecvNonRoot 2 1 1 false false 2 2 ⟨false, 0, false, false⟩
        ⟨ProbeRes.perr Errno.eIO, 0, Errno.eIO⟩ 1 Errno.eINVAL =
      ⟨2, ⟨false, 0, false, false⟩, Errno.eIO, some 2⟩ := by
  refine ⟨rfl, rfl, rfl, rfl⟩

/-- C4 counterexample: two Handles, EOS probed on participants[0]. The
probed front Handle with id 0 is still in the participants list after the
call (closed and marked probed), while the Handle with id 1 at the back is
the one that was removed; so the removed Handle is not the probed one. -/
theorem C4_counterexample :
    (FanOutGeneric.probe
        [⟨0, FOut.msg 0, false, 0, false, false⟩, ⟨1, FOut.retry, false, 0, false, false⟩]
        true 0 Errno.eINVAL).ps.map FHandle.id = [0] ∧
    (FanOutGeneric.probe
        [⟨0, FOut.msg 0, false, 0, false, false⟩, ⟨1, FOut.retry, false, 0, false, false⟩]
        true 0 Errno.eINVAL).closed = [0] := by
  decide

/-- C4 amended: when the probe of participants[0] reports EOS, FanOut
closes the probed Handle participants[0], but the element it removes from
the participants list is the LAST one; the removed Handle coincides with
the probed one exactly when the list is a singleton, as in the non-root
view, and in that case the claim holds as stated. -/
theorem C4_fanout_eos_pops_back (h : FHandle) (t : List FHandle)
    (blocking : Bool) (size0 : Nat) (errIn : Errno)
    (hout : h.out = FOut.msg 0) :
    (FanOutGeneric.probe (h :: t) blocking size0 errIn).closed = [h.id] ∧
    (FanOutGeneric.probe (h :: t) blocking size0 errIn).ps.map FHandle.id =
      ((h :: t).dropLast.map FHandle.id) ∧
    (t = [] → (FanOutGeneric.probe (h :: t) blocking size0 errIn).ps = []) := by
  cases t with
  | nil => simp [FanOutGeneric.probe, hout]
  | cons a t' =>
      refine ⟨by simp [FanOutGeneric.probe, hout], ?_, by intro hcontra; cases hcontra⟩
      simp [FanOutGeneric.probe, hout, List.dropLast_cons_of_ne_nil,
        setProbed_id, closeF_id]

/-- C4 witness: singleton participants list, where the amended statement
also yields the original claim. -/
theorem C4_fanout_eos_pops_back_witness :
    (FanOutGeneric.probe [⟨7, FOut.msg 0, false, 0, false, false⟩] true 0
        Errno.eINVAL).closed = [7] ∧
    (FanOutGeneric.probe [⟨7, FOut.msg 0, false, 0, false, false⟩] true 0
        Errno.eINVAL).ps = [] := by
  have hthm := C4_fanout_eos_pops_back ⟨7, FOut.msg 0, false, 0, false, false⟩ []
    true 0 Errno.eINVAL rfl
  exact ⟨hthm.1, hthm.2.2 rfl⟩

/-- C8: a root-side Scatter sendrecv with valid buffers whose recvsize is
below the root's own share chunk(0) fails with -1 and InvalidArgument
before performing any I/O: the list of chunks sent to peers is empty. -/
theorem C8_scatter_recvsize_too_small (n d sendsize recvsize : Nat)
    (sendbuf : List Nat) (sendOk : Nat → Bool)
    (hlt : recvsize < specChunk sendsize d n 0) :
    ScatterGeneric.sendrecvRoot n d (some sendbuf) false sendsize recvsize sendOk =
      SOut.fail Errno.eINVAL [] := by
  by_cases hmod : sendsize % d = 0
  · have hlt2 : recvsize < sendsize / d / n * d +
        (if 0 < sendsize / d % n then d else 0) := hlt
    simp [ScatterGeneric.sendrecvRoot, hmod, hlt2]
  · simp [ScatterGeneric.sendrecvRoot, hmod]

/-- C8 witness: three participants, seven one-byte elements, root share 3,
receive capacity 2. -/
theorem C8_scatter_recvsize_too_small_witness :
    ScatterGeneric.sendrecvRoot 3 1 (some [0, 1, 2, 3, 4, 5, 6]) false 7 2
        (fun _ => true) = SOut.fail Errno.eINVAL [] :=
  C8_scatter_recvsize_too_small 3 1 7 2 [0, 1, 2, 3, 4, 5, 6] (fun _ => true)
    (by decide)

/-- One chunk of the partition in terms of a precomputed base and
remainder; `specChunk sendsize d n` is definitionally
`chunkOf (sendsize / d / n * d) (sendsize / d % n) d`. -/
def chunkOf (base rem d r : Nat) : Nat := base + (if r < rem then d else 0)

/-- Closed form of the root-side peer-send loop of Scatter: when every
send succeeds, peer i carries the chunk of rank i + 1 taken at the running
offset, with the countdown remainder matching the closed chunk formula. -/
theorem scatterLoop_spec (sendOk : Nat → Bool) (base d rem : Nat) :
    ∀ k i (buf : List Nat) (acc : List (List Nat)),
      (∀ j, j < k → sendOk (i + j) = true) →
      scatterLoop sendOk base d buf (rem - (i + 1)) i k acc =
        (true, acc ++ (List.range k).map (fun j =>
          (buf.drop ((Finset.range j).sum
              (fun t => chunkOf base rem d (i + 1 + t)))).take
            (chunkOf base rem d (i + 1 + j)))) := by
  intro k
  induction k with
  | zero => intro i buf acc _; simp [scatterLoop]
  | succ k ih =>
      intro i buf acc hok
      have hchunk : base + (if rem - (i + 1) > 0 then d else 0) =
          chunkOf base rem d (i + 1) := by
        unfold chunkOf
        by_cases hlt : i + 1 < rem
        · rw [if_pos (show rem - (i + 1) > 0 by omega), if_pos hlt]
        · rw [if_neg (show ¬ rem - (i + 1) > 0 by omega), if_neg hlt]
      have hrc : (if rem - (i + 1) > 0 then rem - (i + 1) - 1 else rem - (i + 1)) =
          rem - (i + 1 + 1) := by
        split <;> omega
      have hok0 : sendOk i = true := by
        have := hok 0 (Nat.succ_pos k); simpa using this
      rw [scatterLoop, hchunk, hrc, hok0, if_pos rfl]
      have ihh := ih (i + 1) (buf.drop (chunkOf base rem d (i + 1)))
        (acc ++ [buf.take (chunkOf base rem d (i + 1))])
        (fun j hj => by
          have := hok (j + 1) (by omega)
          have harith : i + (j + 1) = i + 1 + j := by omega
          rwa [harith] at this)
      rw [ihh]
      refine congrArg (fun l => (true, l)) ?_
      rw [List.append_assoc]
      refine congrArg (fun l => acc ++ l) ?_
      rw [List.range_succ_eq_map, List.map_cons, List.map_map]
      refine congrArg₂ (fun x l => x :: l) ?_ ?_
      · simp
      · refine List.map_congr_left (fun j _ => ?_)
        simp only [Function.comp]
        have hidx : i + 1 + (j + 1) = i + 1 + 1 + j := by omega
        have hsum : (Finset.range (j + 1)).sum
            (fun t => chunkOf base rem d (i + 1 + t)) =
            (Finset.range j).sum
              (fun t => chunkOf base rem d (i + 1 + 1 + t)) +
              chunkOf base rem d (i + 1) := by
          rw [Finset.sum_range_succ']
          refine congrArg₂ (· + ·) (Finset.sum_congr rfl (fun t _ => ?_)) (by simp)
          have : i + 1 + (t + 1) = i + 1 + 1 + t := by omega
          rw [this]
        rw [List.drop_drop, Nat.succ_eq_add_one, hidx, hsum]
        congr 1
        congr 1
        omega

/-- The chunks of all ranks sum to the full buffer when the element size
divides it. -/
theorem specChunk_sum (sendsize d n : Nat) (hn : 0 < n)
    (hdvd : d ∣ sendsize) :
    (Finset.range n).sum (specChunk sendsize d n) = sendsize := by
  have hrem : sendsize / d % n < n := Nat.mod_lt _ hn
  unfold specChunk
  rw [Finset.sum_add_distrib, Finset.sum_const, Finset.card_range, smul_eq_mul]
  have h2 : (Finset.range n).sum (fun r => if r < sendsize / d % n then d else 0)
      = d * (sendsize / d % n) := by
    calc (Finset.range n).sum (fun r => if r < sendsize / d % n then d else 0)
        = (Finset.range n).sum
            (fun r => d * (if r < sendsize / d % n then 1 else 0)) := by
          refine Finset.sum_congr rfl (fun r _ => ?_); split <;> simp
      _ = d * (Finset.range n).sum
            (fun r => if r < sendsize / d % n then 1 else 0) := by
          rw [Finset.mul_sum]
      _ = d * min (sendsize / d % n) n := by rw [sum_ite_lt]
      _ = d * (sendsize / d % n) := by
          rw [Nat.min_eq_left (Nat.le_of_lt hrem)]
  rw [h2]
  have h3 : n * (sendsize / d / n * d) + d * (sendsize / d % n)
      = d * (n * (sendsize / d / n) + sendsize / d % n) := by ring
  rw [h3, Nat.div_add_mod (sendsize / d) n, Nat.mul_div_cancel' hdvd]

/-- C1: a root-side Scatter sendrecv with both buffers valid, sendsize
divisible by datasize, every peer send succeeding and recvsize at least
chunk 0 copies the first chunk 0 bytes of sendbuf into recvbuf, sends to
peer Handle i (rank i + 1) in order exactly the chunk (i + 1) bytes of
sendbuf at the running offset, that is the sum of the chunks of the ranks
before it, each sent chunk has exactly its rank's length, the chunks of
all ranks sum to sendsize, and the call returns chunk 0. -/
theorem C1_scatter_root (n d sendsize recvsize : Nat) (sendbuf : List Nat)
    (sendOk : Nat → Bool) (hn : 1 ≤ n) (_hd : 0 < d) (hdvd : d ∣ sendsize)
    (hlen : sendbuf.length = sendsize)
    (hrecv : specChunk sendsize d n 0 ≤ recvsize)
    (hsend : ∀ i, i < n - 1 → sendOk i = true) :
    ScatterGeneric.sendrecvRoot n d (some sendbuf) false sendsize recvsize sendOk =
      SOut.ok (specChunk sendsize d n 0) (sendbuf.take (specChunk sendsize d n 0))
        ((List.range (n - 1)).map (fun i =>
          (sendbuf.drop ((Finset.range (i + 1)).sum (specChunk sendsize d n))).take
            (specChunk sendsize d n (i + 1)))) ∧
    (∀ i, i < n - 1 →
      ((sendbuf.drop ((Finset.range (i + 1)).sum (specChunk sendsize d n))).take
          (specChunk sendsize d n (i + 1))).length = specChunk sendsize d n (i + 1)) ∧
    (Finset.range n).sum (specChunk sendsize d n) = sendsize := by
  have hmod : sendsize % d = 0 := by
    rcases hdvd with ⟨c, rfl⟩
    simp [Nat.mul_mod_right]
  refine ⟨?_, ?_, specChunk_sum sendsize d n hn hdvd⟩
  · have hnotlt : ¬ recvsize < sendsize / d / n * d +
        (if 0 < sendsize / d % n then d else 0) := by
      have h0 : specChunk sendsize d n 0 = sendsize / d / n * d +
          (if 0 < sendsize / d % n then d else 0) := rfl
      omega
    have hloop := scatterLoop_spec sendOk (sendsize / d / n * d) d
      (sendsize / d % n) (n - 1) 0 (sendbuf.drop (specChunk sendsize d n 0)) []
      (fun j hj => by simpa using hsend j hj)
    simp only [ScatterGeneric.sendrecvRoot, hmod]
    rw [if_neg hnotlt]
    simp only [gt_iff_lt]
    have hself : sendsize / d / n * d + (if 0 < sendsize / d % n then d else 0) =
        specChunk sendsize d n 0 := rfl
    have hrc2 : (if 0 < sendsize / d % n then sendsize / d % n - 1
        else sendsize / d % n) = sendsize / d % n - (0 + 1) := by
      split <;> omega
    rw [hself, hrc2, hloop]
    simp only [List.nil_append]
    refine congrArg (SOut.ok (specChunk sendsize d n 0)
      (List.take (specChunk sendsize d n 0) sendbuf)) ?_
    refine List.map_congr_left (fun j _ => ?_)
    have hch : ∀ x, chunkOf (sendsize / d / n * d) (sendsize / d % n) d x =
        specChunk sendsize d n x := fun _ => rfl
    rw [List.drop_drop]
    have hsum2 : specChunk sendsize d n 0 + (Finset.range j).sum
          (fun t => chunkOf (sendsize / d / n * d) (sendsize / d % n) d (0 + 1 + t)) =
        (Finset.range (j + 1)).sum (specChunk sendsize d n) := by
      rw [Finset.sum_range_succ', Nat.add_comm]
      refine congrArg₂ (· + ·) (Finset.sum_congr rfl (fun t _ => ?_)) rfl
      rw [hch]
      have ht : 0 + 1 + t = t + 1 := by omega
      rw [ht]
    rw [hsum2, hch]
    have hj1 : 0 + 1 + j = j + 1 := by omega
    rw [hj1]
  · intro i hi
    have hsum : (Finset.range (i + 1)).sum (specChunk sendsize d n) +
        specChunk sendsize d n (i + 1) =
        (Finset.range (i + 2)).sum (specChunk sendsize d n) :=
      (Finset.sum_range_succ _ _).symm
    have hle : (Finset.range (i + 2)).sum (specChunk sendsize d n) ≤
        (Finset.range n).sum (specChunk sendsize d n) :=
      Finset.sum_le_sum_of_subset (Finset.range_subset.mpr (by omega))
    have htot := specChunk_sum sendsize d n hn hdvd
    rw [List.length_take, List.length_drop, hlen]
    omega

/-- C1 witness: three participants, seven one-byte elements. The root
keeps bytes 10, 11, 12 and sends 13, 14 to peer 0 and 15, 16 to peer 1. -/
theorem C1_scatter_root_witness :
    ScatterGeneric.sendrecvRoot 3 1 (some [10, 11, 12, 13, 14, 15, 16]) false 7 3
        (fun _ => true) = SOut.ok 3 [10, 11, 12] [[13, 14], [15, 16]] := by
  have hthm := C1_scatter_root 3 1 7 3 [10, 11, 12, 13, 14, 15, 16]
    (fun _ => true) (by decide) (by decide) (by decide) (by decide) (by decide)
    (fun i _ => rfl)
  exact hthm.1.trans (by decide)

theorem fanInFinish_trace (ret : Int) (size : Nat) (ps : List FHandle)
    (pidx : Int) (closed trace : List Nat) :
    (fanInFinish ret size ps pidx closed trace).trace = trace := by
  unfold fanInFinish; split <;> rfl

theorem fanInFinish_ps (ret : Int) (size : Nat) (ps : List FHandle)
    (pidx : Int) (closed trace : List Nat) :
    (fanInFinish ret size ps pidx closed trace).ps = ps := by
  unfold fanInFinish; split <;> rfl

theorem fanInFinish_closed (ret : Int) (size : Nat) (ps : List FHandle)
    (pidx : Int) (closed trace : List Nat) :
    (fanInFinish ret size ps pidx closed trace).closed = closed := by
  unfold fanInFinish; split <;> rfl

theorem fanInLoop_trace_mono (blocking : Bool) :
    ∀ fuel ps i size pidx closed trace r,
      fanInLoop blocking fuel ps i size pidx closed trace = some r →
      ∃ u, r.trace = trace ++ u := by
  intro fuel
  induction fuel with
  | zero =>
      intro ps i size pidx closed trace r hrun
      rw [fanInLoop] at hrun
      split at hrun
      · obtain rfl := Option.some.inj hrun
        exact ⟨[], by rw [fanInFinish_trace]; simp⟩
      · cases hrun
  | succ fuel ih =>
      intro ps i size pidx closed trace r hrun
      rw [fanInLoop] at hrun
      split at hrun
      · obtain rfl := Option.some.inj hrun
        exact ⟨[], by rw [fanInFinish_trace]; simp⟩
      · cases hpi : ps[i]? with
        | none => rw [hpi] at hrun; cases hrun
        | some h =>
            simp only [hpi] at hrun
            cases hout : h.out with
            | retry =>
                simp only [hout] at hrun
                split at hrun
                · split at hrun
                  · obtain ⟨u, hu⟩ := ih _ _ _ _ _ _ _ hrun
                    exact ⟨[h.id] ++ u, by rw [hu]; simp⟩
                  · obtain rfl := Option.some.inj hrun
                    exact ⟨[h.id], by rw [fanInFinish_trace]⟩
                · obtain ⟨u, hu⟩ := ih _ _ _ _ _ _ _ hrun
                  exact ⟨[h.id] ++ u, by rw [hu]; simp⟩
            | zero =>
                simp only [hout] at hrun
                obtain rfl := Option.some.inj hrun
                exact ⟨[h.id], by rw [fanInFinish_trace]⟩
            | msg nn =>
                simp only [hout] at hrun
                split at hrun
                · split at hrun
                  · split at hrun
                    · obtain ⟨u, hu⟩ := ih _ _ _ _ _ _ _ hrun
                      exact ⟨[h.id] ++ u, by rw [hu]; simp⟩
                    · obtain rfl := Option.some.inj hrun
                      exact ⟨[h.id], by rw [fanInFinish_trace]⟩
                  · obtain ⟨u, hu⟩ := ih _ _ _ _ _ _ _ hrun
                    exact ⟨[h.id] ++ u, by rw [hu]; simp⟩
                · obtain rfl := Option.some.inj hrun
                  exact ⟨[h.id], by rw [fanInFinish_trace]⟩


theorem fanInLoop_head (blocking : Bool) (fuel : Nat) (h0 : FHandle)
    (t : List FHandle) (size0 : Nat) (pidx0 : Int) (r : FanInRes)
    (hrun : fanInLoop blocking fuel (h0 :: t) 0 size0 pidx0 [] [] = some r) :
    r.trace.head? = some h0.id := by
  cases fuel with
  | zero =>
      rw [fanInLoop] at hrun
      simp at hrun
  | succ fuel =>
      rw [fanInLoop] at hrun
      have hne : (h0 :: t).isEmpty = false := rfl
      rw [hne] at hrun
      simp only [Bool.false_eq_true, if_false] at hrun
      have hget : (h0 :: t)[0]? = some h0 := by simp
      simp only [hget] at hrun
      cases hout : h0.out with
      | retry =>
          simp only [hout] at hrun
          split at hrun
          · split at hrun
            · obtain ⟨u, hu⟩ := fanInLoop_trace_mono blocking _ _ _ _ _ _ _ _ hrun
              rw [hu]; rfl
            · obtain rfl := Option.some.inj hrun
              rw [fanInFinish_trace]; rfl
          · obtain ⟨u, hu⟩ := fanInLoop_trace_mono blocking _ _ _ _ _ _ _ _ hrun
            rw [hu]; rfl
      | zero =>
          simp only [hout] at hrun
          obtain rfl := Option.some.inj hrun
          rw [fanInFinish_trace]; rfl
      | msg nn =>
          simp only [hout] at hrun
          split at hrun
          · split at hrun
            · split at hrun
              · obtain ⟨u, hu⟩ := fanInLoop_trace_mono blocking _ _ _ _ _ _ _ _ hrun
                rw [hu]; rfl
              · obtain rfl := Option.some.inj hrun
                rw [fanInFinish_trace]; rfl
            · obtain ⟨u, hu⟩ := fanInLoop_trace_mono blocking _ _ _ _ _ _ _ _ hrun
              rw [hu]; rfl
          · obtain rfl := Option.some.inj hrun
            rw [fanInFinish_trace]; rfl

theorem fanInLoop_all_retry (ps : List FHandle)
    (hall : ∀ x ∈ ps, x.out = FOut.retry) :
    ∀ k i size pidx closed trace fuel, i + k = ps.length → 0 < k → k ≤ fuel →
      fanInLoop false fuel ps i size pidx closed trace =
        some ⟨-1, size, ps, pidx, closed, trace ++ (ps.drop i).map FHandle.id⟩ := by
  intro k
  induction k with
  | zero => intro i size pidx closed trace fuel hik hk; omega
  | succ k ihk =>
      intro i size pidx closed trace fuel hik _hk hfuel
      obtain ⟨fuel, rfl⟩ : ∃ f, fuel = f + 1 := ⟨fuel - 1, by omega⟩
      have hilt : i < ps.length := by omega
      rw [fanInLoop]
      split
      · rename_i hemp
        rw [List.isEmpty_iff] at hemp
        subst hemp
        simp at hilt
      · have hget : ps[i]? = some ps[i] := List.getElem?_eq_getElem hilt
        simp only [hget]
        have hout : ps[i].out = FOut.retry := hall _ (List.getElem_mem hilt)
        simp only [hout]
        by_cases hend : i + 1 = ps.length
        · rw [if_pos hend]
          simp only [Bool.false_eq_true, if_false]
          have hdrop : ps.drop i = [ps[i]] := by
            rw [List.drop_eq_getElem_cons hilt, List.drop_eq_nil_of_le (by omega)]
          rw [hdrop]
          unfold fanInFinish
          rw [if_neg (by
            intro hemp
            rw [List.isEmpty_iff] at hemp
            subst hemp
            simp at hilt)]
          rfl
        · rw [if_neg hend]
          have hrec := ihk (i + 1) size pidx closed (trace ++ [ps[i].id]) fuel
            (by omega) (by omega) (by omega)
          rw [hrec]
          rw [List.drop_eq_getElem_cons hilt]
          simp
          rw [List.drop_eq_getElem_cons
            (show i < (List.map FHandle.id ps).length by simpa using hilt)]
          simp


theorem setIdx_self (L : List Nat) (i : Nat) (h : i < L.length) :
    L.set i L[i] = L := by
  apply List.ext_getElem
  · simp
  · intro j hj hj2
    by_cases hij : i = j
    · subst hij; simp
    · rw [List.getElem_set_ne hij]

theorem map_id_eraseIdx (ps : List FHandle) (i : Nat) :
    (ps.eraseIdx i).map FHandle.id = (ps.map FHandle.id).eraseIdx i := by
  rw [List.eraseIdx_eq_take_drop_succ, List.eraseIdx_eq_take_drop_succ,
    List.map_append, List.map_take, List.map_drop]

theorem nodup_getElem_not_mem_eraseIdx :
    ∀ (L : List Nat) (i : Nat) (hi : i < L.length), L.Nodup →
      L[i] ∉ L.eraseIdx i := by
  intro L
  induction L with
  | nil => intro i hi; simp at hi
  | cons a L ih =>
      intro i hi hnd
      cases i with
      | zero => simpa using (List.nodup_cons.mp hnd).1
      | succ i =>
          have hi2 : i < L.length := by simpa using hi
          have hne : L[i] ≠ a := by
            intro heq
            exact (List.nodup_cons.mp hnd).1 (heq ▸ List.getElem_mem hi2)
          simp only [List.eraseIdx_cons_succ, List.getElem_cons_succ, List.mem_cons]
          push_neg
          exact ⟨hne, ih i hi2 (List.nodup_cons.mp hnd).2⟩

theorem mem_eraseIdx_or :
    ∀ (ps : List FHandle) (i : Nat) (hilt : i < ps.length) (hh : FHandle),
      hh ∈ ps → hh = ps[i] ∨ hh ∈ ps.eraseIdx i := by
  intro ps
  induction ps with
  | nil => intro i hi; simp at hi
  | cons a t ih =>
      intro i hi hh hm
      cases i with
      | zero =>
          rcases List.mem_cons.mp hm with heq | hmem
          · exact Or.inl (by simpa using heq)
          · exact Or.inr (by simpa using hmem)
      | succ i =>
          have hi2 : i < t.length := by simpa using hi
          rcases List.mem_cons.mp hm with heq | hmem
          · subst heq
            exact Or.inr (by simp [List.eraseIdx_cons_succ])
          · rcases ih i hi2 hh hmem with heq | hmem2
            · exact Or.inl (by simpa using heq)
            · exact Or.inr (by simp [List.eraseIdx_cons_succ, hmem2])


/-- Invariant of one FanIn probe call relative to the participants list
and the already-closed ids at entry. -/
def FanInInv (ps : List FHandle) (closed : List Nat) (r : FanInRes) : Prop :=
  ((0 < r.ret ∧ r.size = 0) → r.ps = []) ∧
  (r.ps = [] → r.ret = 8 ∧ r.size = 0) ∧
  (∀ x ∈ r.ps, x.id ∈ ps.map FHandle.id) ∧
  (∀ c ∈ closed, c ∈ r.closed) ∧
  (∀ c ∈ r.closed, c ∈ closed ∨
    ((∃ hh, hh ∈ ps ∧ hh.id = c ∧ hh.out = FOut.msg 0) ∧
      c ∉ r.ps.map FHandle.id)) ∧
  (∀ hh ∈ ps, hh.id ∉ r.ps.map FHandle.id → hh.id ∈ r.closed)

theorem fanInInv_finish_self (ret : Int) (size : Nat) (ps2 ps : List FHandle)
    (pidx : Int) (closed trace : List Nat)
    (hids : ps2.map FHandle.id = ps.map FHandle.id)
    (hsz : ¬ (0 < ret ∧ size = 0)) :
    FanInInv ps closed (fanInFinish ret size ps2 pidx closed trace) := by
  by_cases hemp : ps2 = []
  · subst hemp
    have hps : ps = [] := by simpa using hids.symm
    subst hps
    refine ⟨fun _ => rfl, fun _ => ⟨rfl, rfl⟩, ?_, ?_, ?_, ?_⟩
    · intro x hx; simp [fanInFinish] at hx
    · intro c hc; simpa [fanInFinish] using hc
    · intro c hc
      simp only [fanInFinish] at hc
      exact Or.inl (by simpa using hc)
    · intro hh hhm; simp at hhm
  · have hne : ps2.isEmpty = false := by
      cases ps2
      · exact absurd rfl hemp
      · rfl
    unfold fanInFinish
    rw [hne]
    simp only [Bool.false_eq_true, if_false]
    refine ⟨fun hc => absurd hc hsz, fun hc => absurd hc hemp, ?_, ?_, ?_, ?_⟩
    · intro x hx
      rw [← hids]
      exact List.mem_map_of_mem FHandle.id hx
    · intro c hc; exact hc
    · intro c hc; exact Or.inl hc
    · intro hh hhm hnot
      exact absurd (hids ▸ List.mem_map_of_mem FHandle.id hhm) hnot

theorem fanInInv_finish_erase (ps : List FHandle) (i : Nat)
    (hilt : i < ps.length) (hout : ps[i].out = FOut.msg 0)
    (hnd : (ps.map FHandle.id).Nodup) (closed : List Nat)
    (pidx : Int) (trace : List Nat) :
    FanInInv ps closed
      (fanInFinish (-1) 0 (ps.eraseIdx i) pidx (closed ++ [ps[i].id]) trace) := by
  have hilt2 : i < (ps.map FHandle.id).length := by simpa using hilt
  have hnotE : ps[i].id ∉ (ps.eraseIdx i).map FHandle.id := by
    rw [map_id_eraseIdx]
    have hgm : (ps.map FHandle.id)[i] = ps[i].id := List.getElem_map FHandle.id
    exact hgm ▸ nodup_getElem_not_mem_eraseIdx (ps.map FHandle.id) i hilt2 hnd
  by_cases hemp : ps.eraseIdx i = []
  · rw [hemp]
    refine ⟨fun _ => rfl, fun _ => ⟨rfl, rfl⟩, ?_, ?_, ?_, ?_⟩
    · intro x hx; simp [fanInFinish] at hx
    · intro c hc
      simp only [fanInFinish, List.isEmpty_nil, if_true]
      exact List.mem_append_left _ hc
    · intro c hc
      simp only [fanInFinish, List.isEmpty_nil, if_true] at hc
      rcases List.mem_append.mp hc with hcl | hcr
      · exact Or.inl hcl
      · refine Or.inr ⟨⟨ps[i], List.getElem_mem hilt,
          (List.mem_singleton.mp hcr).symm, hout⟩, by simp [fanInFinish]⟩
    · intro hh hhm _
      simp only [fanInFinish, List.isEmpty_nil, if_true]
      rcases mem_eraseIdx_or ps i hilt hh hhm with heq | hmem
      · subst heq
        exact List.mem_append_right _ (List.mem_singleton.mpr rfl)
      · rw [hemp] at hmem; cases hmem
  · have hne : (ps.eraseIdx i).isEmpty = false := by
      cases hE : ps.eraseIdx i
      · exact absurd hE hemp
      · rfl
    unfold fanInFinish
    rw [hne]
    simp only [Bool.false_eq_true, if_false]
    refine ⟨fun hc => by norm_num at hc, fun hc => absurd hc hemp, ?_, ?_, ?_, ?_⟩
    · intro x hx
      exact List.mem_map_of_mem FHandle.id ((List.eraseIdx_sublist ps i).subset hx)
    · intro c hc; exact List.mem_append_left _ hc
    · intro c hc
      rcases List.mem_append.mp hc with hcl | hcr
      · exact Or.inl hcl
      · obtain rfl : c = ps[i].id := List.mem_singleton.mp hcr
        exact Or.inr ⟨⟨ps[i], List.getElem_mem hilt, rfl, hout⟩, hnotE⟩
    · intro hh hhm hnot
      rcases mem_eraseIdx_or ps i hilt hh hhm with heq | hmem
      · subst heq
        exact List.mem_append_right _ (List.mem_singleton.mpr rfl)
      · exact absurd (List.mem_map_of_mem FHandle.id hmem) hnot

theorem fanInInv_lift_erase (ps : List FHandle) (i : Nat)
    (hilt : i < ps.length) (hout : ps[i].out = FOut.msg 0)
    (hnd : (ps.map FHandle.id).Nodup) (closed : List Nat) (r : FanInRes)
    (hinv : FanInInv (ps.eraseIdx i) (closed ++ [ps[i].id]) r) :
    FanInInv ps closed r := by
  obtain ⟨h1, h2, h3, h4, h5, h6⟩ := hinv
  have hsubm : ∀ c, c ∈ (ps.eraseIdx i).map FHandle.id → c ∈ ps.map FHandle.id :=
    fun c hc => ((List.eraseIdx_sublist ps i).map FHandle.id).subset hc
  have hilt2 : i < (ps.map FHandle.id).length := by simpa using hilt
  have hnotE : ps[i].id ∉ (ps.eraseIdx i).map FHandle.id := by
    rw [map_id_eraseIdx]
    have hgm : (ps.map FHandle.id)[i] = ps[i].id := List.getElem_map FHandle.id
    exact hgm ▸ nodup_getElem_not_mem_eraseIdx (ps.map FHandle.id) i hilt2 hnd
  refine ⟨h1, h2, ?_, ?_, ?_, ?_⟩
  · intro x hx; exact hsubm _ (h3 x hx)
  · intro c hc; exact h4 c (List.mem_append_left _ hc)
  · intro c hc
    rcases h5 c hc with hcl | ⟨⟨hh, hhm, hhid, hhout⟩, hnot⟩
    · rcases List.mem_append.mp hcl with hc2 | hc2
      · exact Or.inl hc2
      · obtain rfl : c = ps[i].id := List.mem_singleton.mp hc2
        refine Or.inr ⟨⟨ps[i], List.getElem_mem hilt, rfl, hout⟩, ?_⟩
        intro hmem
        obtain ⟨x, hx, hxid⟩ := List.mem_map.mp hmem
        exact hnotE (hxid ▸ h3 x hx)
    · exact Or.inr ⟨⟨hh, (List.eraseIdx_sublist ps i).subset hhm, hhid, hhout⟩, hnot⟩
  · intro hh hhm hnot
    rcases mem_eraseIdx_or ps i hilt hh hhm with heq | hmem
    · subst heq
      exact h4 _ (List.mem_append_right _ (List.mem_singleton.mpr rfl))
    · exact h6 hh hmem hnot


theorem fanInLoop_inv (blocking : Bool) :
    ∀ fuel ps i size pidx closed trace r,
      fanInLoop blocking fuel ps i size pidx closed trace = some r →
      (ps.map FHandle.id).Nodup →
      (∀ c ∈ closed, c ∉ ps.map FHandle.id) →
      FanInInv ps closed r := by
  intro fuel
  induction fuel with
  | zero =>
      intro ps i size pidx closed trace r hrun hnd hdisj
      rw [fanInLoop] at hrun
      split at hrun
      · rename_i hemp
        rw [List.isEmpty_iff] at hemp
        subst hemp
        obtain rfl := Option.some.inj hrun
        exact fanInInv_finish_self (-1) size [] [] pidx closed trace rfl
          (by norm_num)
      · cases hrun
  | succ fuel ih =>
      intro ps i size pidx closed trace r hrun hnd hdisj
      rw [fanInLoop] at hrun
      split at hrun
      · rename_i hemp
        rw [List.isEmpty_iff] at hemp
        subst hemp
        obtain rfl := Option.some.inj hrun
        exact fanInInv_finish_self (-1) size [] [] pidx closed trace rfl
          (by norm_num)
      · cases hpi : ps[i]? with
        | none => rw [hpi] at hrun; cases hrun
        | some h =>
            obtain ⟨hilt, hgeti⟩ := List.getElem?_eq_some.mp hpi
            simp only [hpi] at hrun
            cases hout : h.out with
            | retry =>
                simp only [hout] at hrun
                split at hrun
                · split at hrun
                  · exact ih _ _ _ _ _ _ _ hrun hnd hdisj
                  · obtain rfl := Option.some.inj hrun
                    exact fanInInv_finish_self (-1) size ps ps pidx closed _
                      rfl (by norm_num)
                · exact ih _ _ _ _ _ _ _ hrun hnd hdisj
            | zero =>
                simp only [hout] at hrun
                obtain rfl := Option.some.inj hrun
                exact fanInInv_finish_self 0 size ps ps pidx closed _
                  rfl (by norm_num)
            | msg nn =>
                simp only [hout] at hrun
                split at hrun
                · rename_i hn0
                  subst hn0
                  have houti : ps[i].out = FOut.msg 0 := by rw [hgeti, hout]
                  have hndE : ((ps.eraseIdx i).map FHandle.id).Nodup :=
                    ((List.eraseIdx_sublist ps i).map FHandle.id).nodup hnd
                  have hilt2 : i < (ps.map FHandle.id).length := by
                    simpa using hilt
                  have hdisjE : ∀ c ∈ closed ++ [h.id],
                      c ∉ (ps.eraseIdx i).map FHandle.id := by
                    intro c hc
                    rcases List.mem_append.mp hc with hc1 | hc1
                    · intro hmem
                      exact hdisj c hc1
                        (((List.eraseIdx_sublist ps i).map FHandle.id).subset hmem)
                    · obtain rfl : c = h.id := List.mem_singleton.mp hc1
                      rw [← hgeti, map_id_eraseIdx]
                      have hgm : (ps.map FHandle.id)[i] = ps[i].id :=
                        List.getElem_map FHandle.id
                      exact hgm ▸ nodup_getElem_not_mem_eraseIdx
                        (ps.map FHandle.id) i hilt2 hnd
                  split at hrun
                  · split at hrun
                    · refine fanInInv_lift_erase ps i hilt houti hnd closed r ?_
                      have := ih _ _ _ _ _ _ _ hrun hndE hdisjE
                      rw [hgeti]
                      exact this
                    · obtain rfl := Option.some.inj hrun
                      have := fanInInv_finish_erase ps i hilt houti hnd closed
                        pidx (trace ++ [h.id])
                      rw [hgeti] at this
                      exact this
                  · refine fanInInv_lift_erase ps i hilt houti hnd closed r ?_
                    have := ih _ _ _ _ _ _ _ hrun hndE hdisjE
                    rw [hgeti]
                    exact this
                · obtain rfl := Option.some.inj hrun
                  have hids : ((ps.set i (setProbed h nn)).map FHandle.id) =
                      ps.map FHandle.id := by
                    rw [List.map_set, setProbed_id, ← hgeti]
                    have hilt2 : i < (ps.map FHandle.id).length := by
                      simpa using hilt
                    have hgm : (ps.map FHandle.id)[i] = ps[i].id :=
                      List.getElem_map FHandle.id
                    rw [← hgm]
                    exact setIdx_self (ps.map FHandle.id) i hilt2
                  rename_i hnn
                  exact fanInInv_finish_self 8 nn (ps.set i (setProbed h nn)) ps
                    (Int.ofNat i) closed _ hids (by simp [hnn])


/-- C3 counterexample: two Handles that both keep having a message ready.
After one probe round (which scans and selects Handle 0, trace [0]) and the
paired receive, the persistent state, the participants list and probed
idx, is exactly the initial one again; hence the next probe call scans
identically, starting at Handle 0, and Handle 1 is never tried first in
any round: no cursor persists or advances across calls. -/
theorem C3_counterexample :
    FanInGeneric.probe false 10
        [⟨0, FOut.msg 5, false, 0, false, false⟩,
         ⟨1, FOut.msg 7, false, 0, false, false⟩] 0 (-1) =
      some ⟨8, 5,
        [⟨0, FOut.msg 5, true, 5, false, false⟩,
         ⟨1, FOut.msg 7, false, 0, false, false⟩], 0, [], [0]⟩ ∧
    FanInGeneric.receive
        [⟨0, FOut.msg 5, true, 5, false, false⟩,
         ⟨1, FOut.msg 7, false, 0, false, false⟩] 0 5 =
      some (5,
        [⟨0, FOut.msg 5, false, 0, false, false⟩,
         ⟨1, FOut.msg 7, false, 0, false, false⟩], -1) := by
  decide

/-- C3 amended: FanIn's probe keeps no cross-call scan cursor. Every call
begins scanning at the first Handle of participants (the probe trace
starts with its id, for any blocking mode and any outcomes), and a
non-blocking call on Handles that all report would-block scans every
Handle exactly once in list order, from the front, leaving all state
unchanged; the only state surviving across calls is probed idx, which
pairs the following receive with the probed Handle. -/
theorem C3_no_persistent_cursor :
    (∀ blocking fuel (h0 : FHandle) (t : List FHandle) size0 pidx0 r,
      FanInGeneric.probe blocking fuel (h0 :: t) size0 pidx0 = some r →
      r.trace.head? = some h0.id) ∧
    (∀ (ps : List FHandle) size0 pidx0 fuel,
      (∀ x ∈ ps, x.out = FOut.retry) → ps ≠ [] → ps.length ≤ fuel →
      FanInGeneric.probe false fuel ps size0 pidx0 =
        some ⟨-1, size0, ps, pidx0, [], ps.map FHandle.id⟩) := by
  constructor
  · intro blocking fuel h0 t size0 pidx0 r hrun
    exact fanInLoop_head blocking fuel h0 t size0 pidx0 r hrun
  · intro ps size0 pidx0 fuel hall hne hfuel
    have := fanInLoop_all_retry ps hall ps.length 0 size0 pidx0 [] [] fuel
      (by omega) (List.length_pos.mpr hne) hfuel
    simpa [FanInGeneric.probe] using this

/-- C3 witness: a single would-blocking Handle, scanned from the front. -/
theorem C3_no_persistent_cursor_witness :
    FanInGeneric.probe false 1 [⟨5, FOut.retry, false, 0, false, false⟩] 9 3 =
      some ⟨-1, 9, [⟨5, FOut.retry, false, 0, false, false⟩], 3, [], [5]⟩ := by
  exact C3_no_persistent_cursor.2 [⟨5, FOut.retry, false, 0, false, false⟩] 9 3 1
    (by decide) (by decide) (by decide)

/-- C9: in every terminating FanIn probe run (Handle ids distinct), a
per-peer EOS, a successful probe with size 0, is absorbed: every id
closed during the call belongs to a participant whose probe reported a
size-0 message and that participant is no longer in the list, and every
removed participant was closed; the caller sees a positive result with
size 0 exactly when the participants list has become empty, and in that
case the result is the synthetic group EOS, the header indicator 8 with
size 0. -/
theorem C9_fanin_eos_absorbed (blocking : Bool) (fuel : Nat)
    (ps : List FHandle) (size0 : Nat) (pidx0 : Int) (r : FanInRes)
    (hrun : FanInGeneric.probe blocking fuel ps size0 pidx0 = some r)
    (hnd : (ps.map FHandle.id).Nodup) :
    ((0 < r.ret ∧ r.size = 0) ↔ r.ps = []) ∧
    (r.ps = [] → r.ret = 8 ∧ r.size = 0) ∧
    (∀ c ∈ r.closed,
      (∃ hh, hh ∈ ps ∧ hh.id = c ∧ hh.out = FOut.msg 0) ∧
        c ∉ r.ps.map FHandle.id) ∧
    (∀ hh ∈ ps, hh.id ∉ r.ps.map FHandle.id → hh.id ∈ r.closed) := by
  have hinv := fanInLoop_inv blocking fuel ps 0 size0 pidx0 [] [] r hrun hnd
    (by intro c hc; cases hc)
  obtain ⟨h1, h2, _h3, _h4, h5, h6⟩ := hinv
  refine ⟨⟨h1, ?_⟩, h2, ?_, h6⟩
  · intro hps
    obtain ⟨hr, hsz⟩ := h2 hps
    rw [hr, hsz]
    norm_num
  · intro c hc
    rcases h5 c hc with hcl | hcr
    · cases hcl
    · exact hcr

/-- C9 witness: one Handle reporting EOS; it is closed and removed and
the call returns the synthetic group EOS. -/
theorem C9_fanin_eos_absorbed_witness :
    ((0 < (8 : Int) ∧ (0 : Nat) = 0) ↔ ([] : List FHandle) = []) ∧
    (([] : List FHandle) = [] → (8 : Int) = 8 ∧ (0 : Nat) = 0) ∧
    (∀ c ∈ [0],
      (∃ hh, hh ∈ [(⟨0, FOut.msg 0, false, 0, false, false⟩ : FHandle)] ∧
          hh.id = c ∧ hh.out = FOut.msg 0) ∧
        c ∉ ([] : List FHandle).map FHandle.id) ∧
    (∀ hh ∈ [(⟨0, FOut.msg 0, false, 0, false, false⟩ : FHandle)],
      hh.id ∉ ([] : List FHandle).map FHandle.id → hh.id ∈ [0]) := by
  have hthm := C9_fanin_eos_absorbed false 3
    [⟨0, FOut.msg 0, false, 0, false, false⟩] 0 (-1)
    ⟨8, 0, [], -1, [0], [0]⟩ (by decide) (by decide)
  exact hthm

end MTCL
